import Mathlib

/-!
# Hangman round engine: a shallow embedding of `src/Hangman/main.py`

Python strings are modelled as `List Char`; the mutable `GameState` dict
becomes an immutable structure with explicit state passing.  The only
non-determinism in the program is `random.sample` in Easy-mode
initialization; it is modelled by a `SampleOracle` parameter whose fields
state the contract of `random.sample` (result length, distinctness,
membership in the population).
-/

namespace Hangman

/-- Embeds `EASY_MODE_LETTERS: int = 2` (main.py line 8). -/
def EASY_MODE_LETTERS : Nat := 2

/-- Model of Python `str.upper` on a single character, restricted to the
Latin and Cyrillic letters this program handles; every other character is
returned unchanged. -/
def py_upper_char (c : Char) : Char :=
  if 'a' ≤ c ∧ c ≤ 'z' then Char.ofNat (c.toNat - 32)
  else if 'а' ≤ c ∧ c ≤ 'я' then Char.ofNat (c.toNat - 32)
  else if c = 'ё' then 'Ё'
  else c

/-- Model of Python `str.upper` on a string, applied character by character. -/
def py_upper (s : List Char) : List Char := s.map py_upper_char

/-- Model of Python `str.isalpha` on a single character, restricted to the
Latin and Cyrillic ranges that can occur in this program. -/
def py_isalpha (c : Char) : Bool :=
  ('A' ≤ c && c ≤ 'Z') || ('a' ≤ c && c ≤ 'z') ||
  ('А' ≤ c && c ≤ 'я') || c == 'Ё' || c == 'ё'

/-- The `GameState` TypedDict of main.py lines 12-18. -/
structure GameState where
  word : List Char
  mask : List Char
  error_count : Nat
  guessed_letters : List Char
  max_errors : Nat
  game_mode : String
deriving DecidableEq, Repr

/-- Embeds `create_word_mask` (main.py lines 274-281): one underscore per letter. -/
def create_word_mask (word : List Char) : List Char :=
  word.map (fun _ => '_')

/-- The loop of `reveal_letter` (main.py lines 247-249): walk `word` and
`mask` together, replacing `mask[i]` by `letter` wherever
`word[i] == letter`.  Mask entries beyond the length of `word` are kept
(Python touches only indices below `len(word)`); the program only ever
calls this with `len(mask) == len(word)`. -/
def reveal_mask (word mask : List Char) (letter : Char) : List Char :=
  match word, mask with
  | w :: ws, m :: ms =>
      (if w = letter then letter else m) :: reveal_mask ws ms letter
  | _, ms => ms

/-- Embeds `reveal_letter` (main.py lines 240-249). -/
def reveal_letter (state : GameState) (letter : Char) : GameState :=
  { state with mask := reveal_mask state.word state.mask letter }

/-- The discriminated guess outcome of the spec's `submit_guess`. -/
inductive Outcome where
  | acceptedHit
  | acceptedMiss
  | rejectedInvalid
  | rejectedDuplicate
deriving DecidableEq, Repr

/-- Embeds `update_word_mask` (main.py lines 224-237): append the letter to
`guessed_letters`, then either reveal it (letter occurs in the word) or
increment `error_count`. -/
def update_word_mask (state : GameState) (letter : Char) : Outcome × GameState :=
  let st := { state with guessed_letters := state.guessed_letters ++ [letter] }
  if letter ∈ st.word then
    (Outcome.acceptedHit, reveal_letter st letter)
  else
    (Outcome.acceptedMiss, { st with error_count := st.error_count + 1 })

/-- The single-character validity test of `is_valid_russian_letter`
(main.py line 205): `char.isalpha() and ("А" <= char <= "Я" or char == "Ё")`. -/
def is_valid_russian_char (c : Char) : Bool :=
  py_isalpha c && (('А' ≤ c && c ≤ 'Я') || c == 'Ё')

/-- Embeds `is_valid_russian_letter` (main.py lines 198-205):
`len(char) == 1 and char.isalpha() and ("А" <= char <= "Я" or char == "Ё")`. -/
def is_valid_russian_letter (s : List Char) : Bool :=
  match s with
  | [c] => is_valid_russian_char c
  | _ => false

/-- Embeds `process_player_turn` (main.py lines 144-165) without the printing:
uppercase the raw input, reject anything that is not one Russian letter,
reject a repeated letter, otherwise apply `update_word_mask`.  The returned
`Outcome` is the discriminated result the spec calls `submit_guess`. -/
def process_player_turn (state : GameState) (raw : List Char) : Outcome × GameState :=
  match py_upper raw with
  | [letter] =>
      if is_valid_russian_char letter then
        if letter ∈ state.guessed_letters then
          (Outcome.rejectedDuplicate, state)
        else
          update_word_mask state letter
      else (Outcome.rejectedInvalid, state)
  | _ => (Outcome.rejectedInvalid, state)

/-- The keys of `Counter(word)` in first-occurrence order: each distinct
character of `word` listed once. -/
def counter_keys : List Char → List Char
  | [] => []
  | c :: rest => c :: (counter_keys rest).filter (fun d => d ≠ c)

/-- Embeds the `single_occurrence_letters` list of `select_letters_for_easy`
(main.py line 191): the distinct letters of `word` whose count is
exactly 1. -/
def single_occurrence_letters (word : List Char) : List Char :=
  (counter_keys word).filter (fun c => word.count c == 1)

/-- The contract of Python's `random.sample(population, k)`: `k` elements
drawn without replacement, so the result has length `k`, repeats no
position (hence is duplicate-free when the population is), and draws only
from the population. -/
structure SampleOracle where
  sample : List Char → Nat → List Char
  length_sample : ∀ l k, k ≤ l.length → (sample l k).length = k
  nodup_sample : ∀ l k, l.Nodup → (sample l k).Nodup
  mem_sample : ∀ l k c, c ∈ sample l k → c ∈ l

/-- Embeds `select_letters_for_easy` (main.py lines 183-195): if at least
`EASY_MODE_LETTERS` letters occur exactly once, sample that many of them;
otherwise return the empty list. -/
def select_letters_for_easy (oracle : SampleOracle) (word : List Char) : List Char :=
  if EASY_MODE_LETTERS ≤ (single_occurrence_letters word).length then
    oracle.sample (single_occurrence_letters word) EASY_MODE_LETTERS
  else []

/-- The Easy-mode loop of `initialize_game` (main.py lines 123-125):
for each selected letter, reveal it in the mask and append it to
`guessed_letters`. -/
def pre_reveal (state : GameState) (letters : List Char) : GameState :=
  letters.foldl
    (fun st letter =>
      let st2 := reveal_letter st letter
      { st2 with guessed_letters := st2.guessed_letters ++ [letter] })
    state

/-- Embeds `initialize_game` (main.py lines 96-127).  The word drawn from the
external word source is a parameter; the function uppercases it, builds the
all-placeholder mask, and in `easy` mode either pre-reveals the selected
letters or silently downgrades `game_mode` to `normal`. -/
def initialize_game (oracle : SampleOracle) (raw_word : List Char)
    (game_mode : String) : GameState :=
  let word := py_upper raw_word
  let state : GameState :=
    { word := word
      mask := create_word_mask word
      error_count := 0
      guessed_letters := []
      max_errors := 6
      game_mode := game_mode }
  if game_mode = "easy" then
    let letters_to_reveal := select_letters_for_easy oracle word
    if letters_to_reveal = [] then { state with game_mode := "normal" }
    else pre_reveal state letters_to_reveal
  else state

/-- The loop guard of `play_round` (main.py line 139):
`error_count < max_errors and "_" in mask`.  Its negation is the spec's
`is_terminal`. -/
def round_continues (state : GameState) : Bool :=
  state.error_count < state.max_errors && '_' ∈ state.mask

/-- The spec's `is_terminal`: the negation of the `play_round` loop guard. -/
def is_terminal (state : GameState) : Bool :=
  !(round_continues state)

/-- The terminal verdict of a round. -/
inductive RoundOutcome where
  | win
  | loss
deriving DecidableEq, Repr

/-- Embeds `check_game_end` (main.py lines 208-221): the error budget is checked
first, so exhausting it is a loss and everything else is a win. -/
def check_game_end (state : GameState) : RoundOutcome :=
  if state.max_errors ≤ state.error_count then RoundOutcome.loss
  else RoundOutcome.win

/-- The `play_round` loop (main.py lines 130-141) driven by a finite list
of raw inputs: while the guard holds, consume one input with
`process_player_turn`; stop when the guard fails or the inputs run out. -/
def play_round (state : GameState) : List (List Char) → GameState
  | [] => state
  | raw :: rest =>
      if round_continues state then
        play_round (process_player_turn state raw).2 rest
      else state

/-- The round states the program can actually be in: an initialized state,
or a state reached from one by a player turn taken while the `play_round`
loop guard held. -/
inductive Reachable (oracle : SampleOracle) : GameState → Prop where
  | init : ∀ raw_word game_mode,
      Reachable oracle (initialize_game oracle raw_word game_mode)
  | step : ∀ state raw, Reachable oracle state →
      round_continues state = true →
      Reachable oracle (process_player_turn state raw).2

/-- A concrete lawful sampler (`take k` of the population), used to
instantiate `SampleOracle` in concrete runs. -/
def takeOracle : SampleOracle where
  sample := fun l k => l.take k
  length_sample := fun l k hk => by simp [List.length_take]; omega
  nodup_sample := fun l k hl => hl.sublist (List.take_sublist k l)
  mem_sample := fun l k c hc => List.take_subset k l hc

/-! ## Basic lemmas about the embedded operations -/

theorem reveal_mask_length (word : List Char) :
    ∀ (mask : List Char) (l : Char), (reveal_mask word mask l).length = mask.length := by
  induction word with
  | nil => intro mask l; rfl
  | cons w ws ih =>
      intro mask l
      cases mask with
      | nil => rfl
      | cons m ms => simp [reveal_mask, ih]

theorem reveal_mask_getElem? :
    ∀ (word mask : List Char) (l : Char) (i : Nat),
      (reveal_mask word mask l)[i]? =
        if word[i]? = some l ∧ i < mask.length then some l else mask[i]?
  | [], mask, l, i => by simp [reveal_mask]
  | w :: ws, [], l, i => by simp [reveal_mask]
  | w :: ws, m :: ms, l, 0 => by
      by_cases h : w = l <;> simp [reveal_mask, h]
  | w :: ws, m :: ms, l, i + 1 => by
      simp [reveal_mask, reveal_mask_getElem? ws ms l i, Nat.succ_lt_succ_iff]

/-- The mask invariant of the spec's data model, in its strong form: the
mask is exactly the word with every letter not yet in `guessed_letters`
replaced by the placeholder. -/
def MaskInv (s : GameState) : Prop :=
  s.mask.length = s.word.length ∧
  ∀ i : Nat, s.mask[i]? =
    (s.word[i]?).map (fun c => if c ∈ s.guessed_letters then c else '_')

theorem maskInv_reveal_append (s : GameState) (l : Char) (h : MaskInv s) :
    MaskInv { s with mask := reveal_mask s.word s.mask l,
                     guessed_letters := s.guessed_letters ++ [l] } := by
  obtain ⟨hlen, hpt⟩ := h
  refine ⟨by simpa [reveal_mask_length] using hlen, fun i => ?_⟩
  show (reveal_mask s.word s.mask l)[i]? = _
  rw [reveal_mask_getElem?]
  rcases hw : s.word[i]? with _ | wc
  · have hi : s.word.length ≤ i := by
      by_contra hlt
      exact absurd hw (by simp [List.getElem?_eq_getElem (Nat.lt_of_not_le hlt)])
    have : s.mask[i]? = none := List.getElem?_eq_none (hlen ▸ hi)
    simp [hw, this]
  · have hi : i < s.word.length := (List.getElem?_eq_some.mp hw).1
    by_cases hwl : wc = l
    · subst hwl
      simp [hw, hlen ▸ hi, List.mem_append]
    · rw [if_neg (by simp [Option.some.injEq, hwl] :
            ¬ ((some wc : Option Char) = some l ∧ i < s.mask.length))]
      have := hpt i
      rw [hw] at this
      rw [this]
      simp [List.mem_append, hwl]

theorem maskInv_append_notmem (s : GameState) (c : Char) (h : MaskInv s)
    (hc : c ∉ s.word) :
    MaskInv { s with guessed_letters := s.guessed_letters ++ [c] } := by
  obtain ⟨hlen, hpt⟩ := h
  refine ⟨hlen, fun i => ?_⟩
  show s.mask[i]? = _
  rw [hpt i]
  rcases hw : s.word[i]? with _ | wc
  · simp
  · have hwc : wc ∈ s.word := List.getElem?_mem hw
    have hne : wc ≠ c := fun he => hc (he ▸ hwc)
    simp [List.mem_append, hne]

/-! ## Lemmas about validity and case normalization -/

theorem valid_char_cases (c : Char) (h : is_valid_russian_char c = true) :
    ('А' ≤ c ∧ c ≤ 'Я') ∨ c = 'Ё' := by
  simp only [is_valid_russian_char, Bool.and_eq_true, Bool.or_eq_true,
    decide_eq_true_eq, beq_iff_eq] at h
  exact h.2

theorem py_upper_char_valid (c : Char) (h : is_valid_russian_char c = true) :
    py_upper_char c = c := by
  rcases valid_char_cases c h with ⟨h1, h2⟩ | rfl
  · unfold py_upper_char
    rw [if_neg, if_neg, if_neg]
    · intro he
      subst he
      exact absurd h2 (by decide)
    · rintro ⟨h3, -⟩
      exact absurd (le_trans h3 h2) (by decide)
    · rintro ⟨-, h4⟩
      exact absurd (le_trans h1 h4) (by decide)
  · decide

theorem py_upper_single (c : Char) : py_upper [c] = [py_upper_char c] := by
  simp [py_upper]

/-! ## Unfolding lemmas for a player turn -/

theorem update_word_mask_hit (s : GameState) (c : Char) (h : c ∈ s.word) :
    update_word_mask s c =
      (Outcome.acceptedHit,
       { s with guessed_letters := s.guessed_letters ++ [c],
                mask := reveal_mask s.word s.mask c }) := by
  simp [update_word_mask, reveal_letter, h]

theorem update_word_mask_miss (s : GameState) (c : Char) (h : c ∉ s.word) :
    update_word_mask s c =
      (Outcome.acceptedMiss,
       { s with guessed_letters := s.guessed_letters ++ [c],
                error_count := s.error_count + 1 }) := by
  simp [update_word_mask, h]

theorem process_player_turn_valid (s : GameState) (c : Char)
    (hval : is_valid_russian_char c = true) :
    process_player_turn s [c] =
      if c ∈ s.guessed_letters then (Outcome.rejectedDuplicate, s)
      else update_word_mask s c := by
  unfold process_player_turn
  rw [py_upper_single, py_upper_char_valid c hval]
  simp [hval]

theorem process_player_turn_invalid (s : GameState) (raw : List Char)
    (h : is_valid_russian_letter (py_upper raw) = false) :
    process_player_turn s raw = (Outcome.rejectedInvalid, s) := by
  unfold process_player_turn
  rcases hpu : py_upper raw with _ | ⟨c, _ | ⟨d, t⟩⟩
  · rfl
  · rw [hpu] at h
    simp [is_valid_russian_letter] at h
    simp [h]
  · rfl

/-! ## Lemmas about the Easy-mode letter selection -/

theorem counter_keys_nodup (w : List Char) : (counter_keys w).Nodup := by
  induction w with
  | nil => simp [counter_keys]
  | cons c rest ih =>
      rw [counter_keys, List.nodup_cons]
      constructor
      · intro hmem
        have := (List.mem_filter.mp hmem).2
        simp at this
      · exact ih.filter _

theorem mem_counter_keys (w : List Char) (c : Char) :
    c ∈ counter_keys w ↔ c ∈ w := by
  induction w with
  | nil => simp [counter_keys]
  | cons d rest ih =>
      rw [counter_keys]
      by_cases hcd : c = d
      · subst hcd; simp
      · simp [List.mem_filter, hcd, ih]

theorem single_occurrence_nodup (w : List Char) :
    (single_occurrence_letters w).Nodup :=
  (counter_keys_nodup w).filter _

theorem count_of_mem_single_occurrence (w : List Char) (c : Char)
    (h : c ∈ single_occurrence_letters w) : w.count c = 1 := by
  have := (List.mem_filter.mp h).2
  exact eq_of_beq this

theorem mem_word_of_mem_single_occurrence (w : List Char) (c : Char)
    (h : c ∈ single_occurrence_letters w) : c ∈ w :=
  (mem_counter_keys w c).mp (List.mem_filter.mp h).1

/-! ## Lemmas about initialization -/

theorem pre_reveal_spec (letters : List Char) (s : GameState) :
    (pre_reveal s letters).word = s.word ∧
    (pre_reveal s letters).max_errors = s.max_errors ∧
    (pre_reveal s letters).game_mode = s.game_mode ∧
    (pre_reveal s letters).error_count = s.error_count ∧
    (pre_reveal s letters).guessed_letters = s.guessed_letters ++ letters := by
  induction letters generalizing s with
  | nil => simp [pre_reveal]
  | cons l ls ih =>
      have step := ih { s with mask := reveal_mask s.word s.mask l,
                               guessed_letters := s.guessed_letters ++ [l] }
      simp [pre_reveal, reveal_letter, List.foldl_cons] at step ⊢
      simp [step]

theorem pre_reveal_maskInv (letters : List Char) (s : GameState) (h : MaskInv s) :
    MaskInv (pre_reveal s letters) := by
  induction letters generalizing s with
  | nil => simpa [pre_reveal] using h
  | cons l ls ih =>
      have step := maskInv_reveal_append s l h
      simpa [pre_reveal, reveal_letter, List.foldl_cons] using ih _ step

/-- The state built at main.py lines 108-115, before any Easy-mode reveal. -/
def base_state (word : List Char) (game_mode : String) : GameState :=
  { word := word
    mask := create_word_mask word
    error_count := 0
    guessed_letters := []
    max_errors := 6
    game_mode := game_mode }

theorem initialize_game_eq (oracle : SampleOracle) (raw_word : List Char)
    (game_mode : String) :
    initialize_game oracle raw_word game_mode =
      if game_mode = "easy" then
        (if select_letters_for_easy oracle (py_upper raw_word) = [] then
          { base_state (py_upper raw_word) game_mode with game_mode := "normal" }
        else pre_reveal (base_state (py_upper raw_word) game_mode)
          (select_letters_for_easy oracle (py_upper raw_word)))
      else base_state (py_upper raw_word) game_mode := rfl

theorem base_state_maskInv (word : List Char) (game_mode : String) :
    MaskInv (base_state word game_mode) := by
  refine ⟨by simp [base_state, create_word_mask], fun i => ?_⟩
  show (word.map (fun _ => '_'))[i]? = _
  rw [List.getElem?_map]
  cases hw : word[i]? <;> simp [base_state, hw]

theorem initialize_game_fields (oracle : SampleOracle) (raw_word : List Char)
    (game_mode : String) :
    (initialize_game oracle raw_word game_mode).word = py_upper raw_word ∧
    (initialize_game oracle raw_word game_mode).error_count = 0 ∧
    (initialize_game oracle raw_word game_mode).max_errors = 6 := by
  rw [initialize_game_eq]
  split
  · split
    · simp [base_state]
    · have h := pre_reveal_spec (select_letters_for_easy oracle (py_upper raw_word))
        (base_state (py_upper raw_word) game_mode)
      refine ⟨?_, ?_, ?_⟩
      · rw [h.1]; rfl
      · rw [h.2.2.2.1]; rfl
      · rw [h.2.1]; rfl
  · simp [base_state]

theorem initialize_game_maskInv (oracle : SampleOracle) (raw_word : List Char)
    (game_mode : String) :
    MaskInv (initialize_game oracle raw_word game_mode) := by
  rw [initialize_game_eq]
  split
  · split
    · exact base_state_maskInv _ _
    · exact pre_reveal_maskInv _ _ (base_state_maskInv _ _)
  · exact base_state_maskInv _ _

theorem initialize_game_guessed (oracle : SampleOracle) (raw_word : List Char)
    (game_mode : String) (c : Char)
    (h : c ∈ (initialize_game oracle raw_word game_mode).guessed_letters) :
    c ∈ (initialize_game oracle raw_word game_mode).word ∧
    (py_upper raw_word).count c = 1 := by
  rw [initialize_game_eq] at h ⊢
  revert h
  split
  · split
    · simp [base_state]
    · have hg := (pre_reveal_spec (select_letters_for_easy oracle (py_upper raw_word))
        (base_state (py_upper raw_word) game_mode)).2.2.2.2
      have hw := (pre_reveal_spec (select_letters_for_easy oracle (py_upper raw_word))
        (base_state (py_upper raw_word) game_mode)).1
      rw [hg, hw]
      intro h
      simp [base_state] at h ⊢
      have hsing : c ∈ single_occurrence_letters (py_upper raw_word) := by
        revert h
        unfold select_letters_for_easy
        split
        · exact fun h => oracle.mem_sample _ _ c h
        · simp
      exact ⟨mem_word_of_mem_single_occurrence _ c hsing,
        count_of_mem_single_occurrence _ c hsing⟩
  · simp [base_state]

theorem initialize_game_guessed_nodup (oracle : SampleOracle) (raw_word : List Char)
    (game_mode : String) :
    (initialize_game oracle raw_word game_mode).guessed_letters.Nodup := by
  rw [initialize_game_eq]
  split
  · split
    · simp [base_state]
    · have hg := (pre_reveal_spec (select_letters_for_easy oracle (py_upper raw_word))
        (base_state (py_upper raw_word) game_mode)).2.2.2.2
      rw [hg]
      simp [base_state]
      unfold select_letters_for_easy
      split
      · exact oracle.nodup_sample _ _ (single_occurrence_nodup _)
      · simp
  · simp [base_state]

/-! ## The reachable-state invariant -/

/-- The bundle of invariants of the spec's data model: the mask invariant,
no duplicates among guessed letters, `error_count` counting exactly the
guessed letters missing from the word, and the error budget. -/
def Inv (s : GameState) : Prop :=
  MaskInv s ∧ s.guessed_letters.Nodup ∧
  s.error_count =
    (s.guessed_letters.filter (fun c => decide (c ∉ s.word))).length ∧
  s.error_count ≤ s.max_errors

theorem initialize_game_inv (oracle : SampleOracle) (raw_word : List Char)
    (game_mode : String) :
    Inv (initialize_game oracle raw_word game_mode) := by
  refine ⟨initialize_game_maskInv oracle raw_word game_mode,
    initialize_game_guessed_nodup oracle raw_word game_mode, ?_, ?_⟩
  · rw [(initialize_game_fields oracle raw_word game_mode).2.1]
    have hfilter :
        ((initialize_game oracle raw_word game_mode).guessed_letters.filter
          (fun c => decide (c ∉ (initialize_game oracle raw_word game_mode).word))) = [] := by
      rw [List.filter_eq_nil_iff]
      intro c hc
      simp [(initialize_game_guessed oracle raw_word game_mode c hc).1]
    rw [hfilter]
    rfl
  · rw [(initialize_game_fields oracle raw_word game_mode).2.1]
    exact Nat.zero_le _

theorem round_continues_iff (s : GameState) :
    round_continues s = true ↔
      s.error_count < s.max_errors ∧ '_' ∈ s.mask := by
  simp [round_continues]

theorem process_player_turn_inv (s : GameState) (raw : List Char)
    (hinv : Inv s) (hguard : round_continues s = true) :
    Inv (process_player_turn s raw).2 := by
  obtain ⟨hmask, hnodup, herr, hle⟩ := hinv
  obtain ⟨hlt, -⟩ := (round_continues_iff s).mp hguard
  unfold process_player_turn
  rcases hpu : py_upper raw with _ | ⟨c, _ | ⟨d, t⟩⟩
  · exact ⟨hmask, hnodup, herr, hle⟩
  · by_cases hv : is_valid_russian_char c
    · simp only [hv, if_true]
      by_cases hdup : c ∈ s.guessed_letters
      · simp only [hdup, if_true]
        exact ⟨hmask, hnodup, herr, hle⟩
      · simp only [hdup, if_false]
        by_cases hw : c ∈ s.word
        · rw [update_word_mask_hit s c hw]
          refine ⟨maskInv_reveal_append s c hmask, ?_, ?_, hle⟩
          · simp [List.nodup_append, hnodup, hdup]
          · show s.error_count = _
            simp only [List.filter_append]
            rw [show (List.filter (fun x => decide (x ∉ s.word)) [c]) = [] by simp [hw]]
            simpa using herr
        · rw [update_word_mask_miss s c hw]
          refine ⟨maskInv_append_notmem s c hmask hw, ?_, ?_, ?_⟩
          · simp [List.nodup_append, hnodup, hdup]
          · show s.error_count + 1 = _
            simp only [List.filter_append]
            rw [show (List.filter (fun x => decide (x ∉ s.word)) [c]) = [c] by simp [hw]]
            simp [herr]
          · show s.error_count + 1 ≤ s.max_errors
            omega
    · simp only [hv, if_false]
      exact ⟨hmask, hnodup, herr, hle⟩
  · exact ⟨hmask, hnodup, herr, hle⟩

theorem reachable_inv (oracle : SampleOracle) (s : GameState)
    (h : Reachable oracle s) : Inv s := by
  induction h with
  | init raw_word game_mode => exact initialize_game_inv oracle raw_word game_mode
  | step state raw hr hg ih => exact process_player_turn_inv state raw ih hg

/-! ## Preservation of the fixed fields across a turn -/

theorem process_player_turn_fixed (s : GameState) (raw : List Char) :
    (process_player_turn s raw).2.word = s.word ∧
    (process_player_turn s raw).2.max_errors = s.max_errors ∧
    (process_player_turn s raw).2.game_mode = s.game_mode := by
  unfold process_player_turn
  rcases py_upper raw with _ | ⟨c, _ | ⟨d, t⟩⟩
  · exact ⟨rfl, rfl, rfl⟩
  · by_cases hv : is_valid_russian_char c
    · simp only [hv, if_true]
      by_cases hdup : c ∈ s.guessed_letters
      · simp [hdup]
      · simp only [hdup, if_false]
        by_cases hw : c ∈ s.word
        · rw [update_word_mask_hit s c hw]
          exact ⟨rfl, rfl, rfl⟩
        · rw [update_word_mask_miss s c hw]
          exact ⟨rfl, rfl, rfl⟩
    · simp [hv]
  · exact ⟨rfl, rfl, rfl⟩

/-! ## Lemmas about the round loop -/

theorem play_round_stop (s : GameState) (h : round_continues s = false) :
    ∀ inputs, play_round s inputs = s := by
  intro inputs
  cases inputs <;> simp [play_round, h]

theorem no_placeholder_of_all_guessed (s : GameState) (hmask : MaskInv s)
    (hval : ∀ c ∈ s.word, is_valid_russian_char c = true)
    (hall : ∀ c ∈ s.word, c ∈ s.guessed_letters) : '_' ∉ s.mask := by
  intro hmem
  obtain ⟨i, hlen, hget⟩ := List.getElem_of_mem hmem
  have hi : s.mask[i]? = some '_' := by simp [List.getElem?_eq_getElem hlen, hget]
  rw [hmask.2 i] at hi
  rcases hw : s.word[i]? with _ | wc
  · rw [hw] at hi
    simp at hi
  · rw [hw] at hi
    have hwc : wc ∈ s.word := List.getElem?_mem hw
    have hi2 : (if wc ∈ s.guessed_letters then wc else '_') = '_' :=
      Option.some.inj hi
    rw [if_pos (hall wc hwc)] at hi2
    have := hval wc hwc
    rw [hi2] at this
    exact absurd this (by decide)

theorem play_round_in_word (gs : List Char) (s : GameState)
    (hmask : MaskInv s) (herr : s.error_count < s.max_errors)
    (hg : ∀ c ∈ gs, is_valid_russian_char c = true ∧ c ∈ s.word) :
    (play_round s (gs.map (fun c => [c]))).word = s.word ∧
    (play_round s (gs.map (fun c => [c]))).max_errors = s.max_errors ∧
    (play_round s (gs.map (fun c => [c]))).error_count = s.error_count ∧
    MaskInv (play_round s (gs.map (fun c => [c]))) ∧
    (∀ c ∈ s.guessed_letters, c ∈ (play_round s (gs.map (fun c => [c]))).guessed_letters) ∧
    ('_' ∉ (play_round s (gs.map (fun c => [c]))).mask ∨
      ∀ c ∈ gs, c ∈ (play_round s (gs.map (fun c => [c]))).guessed_letters) := by
  induction gs generalizing s with
  | nil =>
      exact ⟨rfl, rfl, rfl, hmask, fun c hc => hc, Or.inr (by simp)⟩
  | cons g rest ih =>
      obtain ⟨hvg, hwg⟩ := hg g (by simp)
      by_cases hrc : round_continues s = true
      · rw [show (g :: rest).map (fun c => [c]) = [g] :: rest.map (fun c => [c]) from rfl]
        rw [show play_round s ([g] :: rest.map (fun c => [c])) =
              play_round (process_player_turn s [g]).2 (rest.map (fun c => [c])) by
            simp [play_round, hrc]]
        rw [process_player_turn_valid s g hvg]
        by_cases hdup : g ∈ s.guessed_letters
        · rw [if_pos hdup]
          obtain ⟨h1, h2, h3, h4, h5, h6⟩ := ih s hmask herr
            (fun c hc => hg c (List.mem_cons_of_mem g hc))
          refine ⟨h1, h2, h3, h4, h5, ?_⟩
          rcases h6 with h6 | h6
          · exact Or.inl h6
          · refine Or.inr (fun c hc => ?_)
            rcases List.mem_cons.mp hc with rfl | hc
            · exact h5 c hdup
            · exact h6 c hc
        · rw [if_neg hdup, update_word_mask_hit s g hwg]
          have hmask2 := maskInv_reveal_append s g hmask
          obtain ⟨h1, h2, h3, h4, h5, h6⟩ := ih
            { s with guessed_letters := s.guessed_letters ++ [g],
                     mask := reveal_mask s.word s.mask g }
            hmask2 herr
            (fun c hc => hg c (List.mem_cons_of_mem g hc))
          refine ⟨h1, h2, h3, h4,
            fun c hc => h5 c (List.mem_append_left _ hc), ?_⟩
          rcases h6 with h6 | h6
          · exact Or.inl h6
          · refine Or.inr (fun c hc => ?_)
            rcases List.mem_cons.mp hc with rfl | hc
            · exact h5 c (List.mem_append_right _ (by simp))
            · exact h6 c hc
      · have hrcf : round_continues s = false := by
          cases h : round_continues s
          · rfl
          · exact absurd h hrc
        rw [play_round_stop s hrcf]
        have hnp : '_' ∉ s.mask := by
          intro hmem
          have : round_continues s = true := by
            simp [round_continues, herr, hmem]
          exact hrc this
        exact ⟨rfl, rfl, rfl, hmask, fun c hc => hc, Or.inl hnp⟩

/-! ## Concrete states used to instantiate the claim theorems -/

/-- A fresh Normal-mode round on the word КОТ. -/
def demo_state : GameState :=
  { word := ['К', 'О', 'Т'], mask := ['_', '_', '_'], error_count := 0,
    guessed_letters := [], max_errors := 6, game_mode := "normal" }

/-- The same round after the letter К has been guessed. -/
def demo_state_dup : GameState :=
  { word := ['К', 'О', 'Т'], mask := ['К', '_', '_'], error_count := 0,
    guessed_letters := ['К'], max_errors := 6, game_mode := "normal" }

/-! ## Claim theorems -/

/-- C3: for every well-formed state and every valid, not-previously-guessed
letter, submitting it appends the letter to `guessed_letters`; if it occurs
in the secret, every mask position whose secret letter is that letter
becomes that letter, other positions are unchanged, and `error_count` is
unchanged (Accepted-Hit); if it does not occur, `error_count` increases by
exactly 1 and the mask is unchanged (Accepted-Miss). -/
theorem submit_new_letter_updates (s : GameState) (c : Char)
    (hlen : s.mask.length = s.word.length)
    (hval : is_valid_russian_char c = true)
    (hnew : c ∉ s.guessed_letters) :
    (process_player_turn s [c]).2.guessed_letters = s.guessed_letters ++ [c] ∧
    (c ∈ s.word →
      (process_player_turn s [c]).1 = Outcome.acceptedHit ∧
      (process_player_turn s [c]).2.error_count = s.error_count ∧
      ∀ i : Nat, (process_player_turn s [c]).2.mask[i]? =
        if s.word[i]? = some c then some c else s.mask[i]?) ∧
    (c ∉ s.word →
      (process_player_turn s [c]).1 = Outcome.acceptedMiss ∧
      (process_player_turn s [c]).2.error_count = s.error_count + 1 ∧
      (process_player_turn s [c]).2.mask = s.mask) := by
  rw [process_player_turn_valid s c hval, if_neg hnew]
  by_cases hw : c ∈ s.word
  · rw [update_word_mask_hit s c hw]
    refine ⟨rfl, fun _ => ⟨rfl, rfl, fun i => ?_⟩, fun hnw => absurd hw hnw⟩
    show (reveal_mask s.word s.mask c)[i]? = _
    rw [reveal_mask_getElem?]
    rcases hwi : s.word[i]? with _ | wc
    · simp
    · by_cases hwc : wc = c
      · subst hwc
        have hi : i < s.word.length := (List.getElem?_eq_some.mp hwi).1
        have him : i < s.mask.length := by omega
        simp [him]
      · simp [hwc]
  · rw [update_word_mask_miss s c hw]
    exact ⟨rfl, fun hcw => absurd hcw hw, fun _ => ⟨rfl, rfl, rfl⟩⟩

/-- Witness for C3: guessing К in a fresh round on КОТ is an accepted hit. -/
theorem submit_new_letter_updates_witness :
    (process_player_turn demo_state ['К']).1 = Outcome.acceptedHit :=
  ((submit_new_letter_updates demo_state 'К' (by decide) (by decide)
    (by decide)).2.1 (by decide)).1

/-- C4: for every state and every raw input whose case-normalized form is
not exactly one letter of the supported (Russian) alphabet, the guess is
Rejected-Invalid and the state is returned unchanged. -/
theorem invalid_input_rejected (s : GameState) (raw : List Char)
    (h : is_valid_russian_letter (py_upper raw) = false) :
    process_player_turn s raw = (Outcome.rejectedInvalid, s) :=
  process_player_turn_invalid s raw h

/-- Witness for C4: the digit 1 is rejected and mutates nothing. -/
theorem invalid_input_rejected_witness :
    process_player_turn demo_state ['1'] = (Outcome.rejectedInvalid, demo_state) :=
  invalid_input_rejected demo_state ['1'] (by decide)

/-- C5: for every state and every valid letter already present in
`guessed_letters`, resubmitting it is Rejected-Duplicate and the state is
returned unchanged. -/
theorem duplicate_letter_rejected (s : GameState) (c : Char)
    (hval : is_valid_russian_char c = true)
    (hdup : c ∈ s.guessed_letters) :
    process_player_turn s [c] = (Outcome.rejectedDuplicate, s) := by
  rw [process_player_turn_valid s c hval, if_pos hdup]

/-- Witness for C5: resubmitting К after it was guessed changes nothing. -/
theorem duplicate_letter_rejected_witness :
    process_player_turn demo_state_dup ['К'] =
      (Outcome.rejectedDuplicate, demo_state_dup) :=
  duplicate_letter_rejected demo_state_dup 'К' (by decide) (by decide)

/-- C6: `is_terminal` holds exactly when the error budget is exhausted or
no placeholder remains in the mask, and the terminal outcome is Loss
whenever `error_count >= max_errors` (that condition is checked first) and
Win otherwise. -/
theorem terminal_condition_and_outcome (s : GameState) :
    (is_terminal s = true ↔
      (s.max_errors ≤ s.error_count ∨ '_' ∉ s.mask)) ∧
    (s.max_errors ≤ s.error_count → check_game_end s = RoundOutcome.loss) ∧
    (s.error_count < s.max_errors → check_game_end s = RoundOutcome.win) := by
  refine ⟨⟨?_, ?_⟩, fun h => by simp [check_game_end, h], fun h => ?_⟩
  · intro ht
    by_cases h1 : s.max_errors ≤ s.error_count
    · exact Or.inl h1
    · refine Or.inr (fun hmem => ?_)
      have hrc : round_continues s = true := by
        simp [round_continues, Nat.lt_of_not_le h1, hmem]
      simp [is_terminal, hrc] at ht
  · intro hd
    have hrc : round_continues s = false := by
      rcases hd with hd | hd
      · simp [round_continues]
        omega
      · simp [round_continues, hd]
    simp [is_terminal, hrc]
  · have : ¬ s.max_errors ≤ s.error_count := by omega
    simp [check_game_end, this]

/-- Witness for C6: a state with the budget exhausted is terminal with
outcome Loss, and a completed mask with budget left is a Win. -/
theorem terminal_condition_and_outcome_witness :
    is_terminal { demo_state with error_count := 6 } = true ∧
    check_game_end { demo_state with error_count := 6 } = RoundOutcome.loss ∧
    check_game_end { demo_state with mask := ['К', 'О', 'Т'] } = RoundOutcome.win :=
  ⟨(terminal_condition_and_outcome { demo_state with error_count := 6 }).1.mpr
      (Or.inl (by decide)),
   (terminal_condition_and_outcome { demo_state with error_count := 6 }).2.1
      (by decide),
   (terminal_condition_and_outcome { demo_state with mask := ['К', 'О', 'Т'] }).2.2
      (by decide)⟩

/-- Counterexample for C1: the word АББА has no letter of count exactly 1
and two letters of count exactly 2, yet Easy-mode initialization pre-reveals
0 letters (not 1) and downgrades the mode to Normal: the code has no
"pick one letter of count two" branch. -/
theorem easy_mode_two_occurrence_cex :
    (['А', 'Б', 'Б', 'А'] : List Char).count 'А' = 2 ∧
    (['А', 'Б', 'Б', 'А'] : List Char).count 'Б' = 2 ∧
    single_occurrence_letters ['А', 'Б', 'Б', 'А'] = [] ∧
    (initialize_game takeOracle ['А', 'Б', 'Б', 'А'] "easy").guessed_letters = [] ∧
    (initialize_game takeOracle ['А', 'Б', 'Б', 'А'] "easy").game_mode = "normal" ∧
    ¬ (initialize_game takeOracle ['А', 'Б', 'Б', 'А'] "easy").guessed_letters.length
        = 1 := by
  decide

/-- C1 (amended): initialize(secret, Easy) pre-reveals two distinct randomly
chosen letters of count exactly 1 when at least two such letters exist;
in every other case — including a secret with a letter of count exactly 2 —
no letters are pre-revealed and the mode downgrades to Normal. -/
theorem easy_mode_select (oracle : SampleOracle) (raw_word : List Char) :
    (2 ≤ (single_occurrence_letters (py_upper raw_word)).length →
      (initialize_game oracle raw_word "easy").game_mode = "easy" ∧
      (initialize_game oracle raw_word "easy").guessed_letters.length = 2 ∧
      (initialize_game oracle raw_word "easy").guessed_letters.Nodup ∧
      ∀ c ∈ (initialize_game oracle raw_word "easy").guessed_letters,
        (py_upper raw_word).count c = 1) ∧
    ((single_occurrence_letters (py_upper raw_word)).length < 2 →
      (initialize_game oracle raw_word "easy").guessed_letters = [] ∧
      (initialize_game oracle raw_word "easy").game_mode = "normal") := by
  constructor
  · intro h2
    have hsel : select_letters_for_easy oracle (py_upper raw_word) =
        oracle.sample (single_occurrence_letters (py_upper raw_word)) 2 := by
      unfold select_letters_for_easy
      rw [if_pos (by exact h2)]
      rfl
    have hlen2 : (oracle.sample (single_occurrence_letters (py_upper raw_word)) 2).length
        = 2 := oracle.length_sample _ 2 h2
    have hne : ¬ (select_letters_for_easy oracle (py_upper raw_word) = []) := by
      rw [hsel]
      intro hnil
      rw [hnil] at hlen2
      simp at hlen2
    have hinit : initialize_game oracle raw_word "easy" =
        pre_reveal (base_state (py_upper raw_word) "easy")
          (oracle.sample (single_occurrence_letters (py_upper raw_word)) 2) := by
      rw [initialize_game_eq, if_pos rfl, if_neg hne, hsel]
    have hspec := pre_reveal_spec
      (oracle.sample (single_occurrence_letters (py_upper raw_word)) 2)
      (base_state (py_upper raw_word) "easy")
    rw [hinit]
    refine ⟨by rw [hspec.2.2.1]; rfl, ?_, ?_, ?_⟩
    · rw [hspec.2.2.2.2]
      simp [base_state, hlen2]
    · rw [hspec.2.2.2.2]
      simp only [base_state, List.nil_append]
      exact oracle.nodup_sample _ _ (single_occurrence_nodup _)
    · intro c hc
      rw [hspec.2.2.2.2] at hc
      simp only [base_state, List.nil_append] at hc
      exact count_of_mem_single_occurrence _ c
        (oracle.mem_sample _ _ c hc)
  · intro hlt
    have hsel0 : select_letters_for_easy oracle (py_upper raw_word) = [] := by
      unfold select_letters_for_easy
      rw [if_neg (by unfold EASY_MODE_LETTERS; omega)]
    rw [initialize_game_eq, if_pos rfl, if_pos hsel0]
    simp [base_state]

/-- Witness for C1 (amended): for the word КОТ (three single-occurrence
letters) Easy mode pre-reveals exactly two distinct letters of count 1. -/
theorem easy_mode_select_witness :
    2 ≤ (single_occurrence_letters (py_upper ['к', 'о', 'т'])).length ∧
    ((initialize_game takeOracle ['к', 'о', 'т'] "easy").game_mode = "easy" ∧
     (initialize_game takeOracle ['к', 'о', 'т'] "easy").guessed_letters.length = 2 ∧
     (initialize_game takeOracle ['к', 'о', 'т'] "easy").guessed_letters.Nodup ∧
     ∀ c ∈ (initialize_game takeOracle ['к', 'о', 'т'] "easy").guessed_letters,
       (py_upper ['к', 'о', 'т']).count c = 1) :=
  ⟨by decide, (easy_mode_select takeOracle ['к', 'о', 'т']).1 (by decide)⟩

/-- Counterexample for C2: with the secret CAT, the Latin guess Z is
Rejected-Invalid (not an Accepted-Miss), and the whole guess sequence
Z, C, A, T leaves the round state untouched and non-terminal with
`error_count = 0` — the validator accepts only Cyrillic letters. -/
theorem cat_scenario_cex :
    (process_player_turn (initialize_game takeOracle ['C', 'A', 'T'] "normal")
        ['Z']).1 = Outcome.rejectedInvalid ∧
    ¬ (process_player_turn (initialize_game takeOracle ['C', 'A', 'T'] "normal")
        ['Z']).1 = Outcome.acceptedMiss ∧
    play_round (initialize_game takeOracle ['C', 'A', 'T'] "normal")
        [['Z'], ['C'], ['A'], ['T']] =
      initialize_game takeOracle ['C', 'A', 'T'] "normal" ∧
    (play_round (initialize_game takeOracle ['C', 'A', 'T'] "normal")
        [['Z'], ['C'], ['A'], ['T']]).error_count = 0 ∧
    is_terminal (play_round (initialize_game takeOracle ['C', 'A', 'T'] "normal")
        [['Z'], ['C'], ['A'], ['T']]) = false := by
  decide

/-- C2 (amended): the CAT scenario holds for a secret of the supported
alphabet: with secret КОТ, the guesses Ф, К, О, Т in order yield outcomes
Miss, Hit, Hit, Hit, and the final state is a terminal Win with
`error_count = 1`. -/
theorem cyrillic_cat_scenario :
    (process_player_turn (initialize_game takeOracle ['К', 'О', 'Т'] "normal")
        ['Ф']).1 = Outcome.acceptedMiss ∧
    (process_player_turn
        (process_player_turn (initialize_game takeOracle ['К', 'О', 'Т'] "normal")
          ['Ф']).2 ['К']).1 = Outcome.acceptedHit ∧
    (process_player_turn (process_player_turn
        (process_player_turn (initialize_game takeOracle ['К', 'О', 'Т'] "normal")
          ['Ф']).2 ['К']).2 ['О']).1 = Outcome.acceptedHit ∧
    (process_player_turn (process_player_turn (process_player_turn
        (process_player_turn (initialize_game takeOracle ['К', 'О', 'Т'] "normal")
          ['Ф']).2 ['К']).2 ['О']).2 ['Т']).1 = Outcome.acceptedHit ∧
    is_terminal (process_player_turn (process_player_turn (process_player_turn
        (process_player_turn (initialize_game takeOracle ['К', 'О', 'Т'] "normal")
          ['Ф']).2 ['К']).2 ['О']).2 ['Т']).2 = true ∧
    check_game_end (process_player_turn (process_player_turn (process_player_turn
        (process_player_turn (initialize_game takeOracle ['К', 'О', 'Т'] "normal")
          ['Ф']).2 ['К']).2 ['О']).2 ['Т']).2 = RoundOutcome.win ∧
    (process_player_turn (process_player_turn (process_player_turn
        (process_player_turn (initialize_game takeOracle ['К', 'О', 'Т'] "normal")
          ['Ф']).2 ['К']).2 ['О']).2 ['Т']).2.error_count = 1 := by
  decide

/-- C7: in every reachable round state the mask has the same length as the
secret, and every mask position holds either the placeholder or exactly the
secret's letter at that position. -/
theorem reachable_mask_matches (oracle : SampleOracle) (s : GameState)
    (h : Reachable oracle s) :
    s.mask.length = s.word.length ∧
    ∀ i : Nat, i < s.mask.length →
      s.mask[i]? = some '_' ∨ s.mask[i]? = s.word[i]? := by
  obtain ⟨⟨hlen, hpt⟩, -, -, -⟩ := reachable_inv oracle s h
  refine ⟨hlen, fun i hi => ?_⟩
  have hiw : i < s.word.length := by omega
  rcases hw : s.word[i]? with _ | wc
  · rw [List.getElem?_eq_getElem hiw] at hw
    simp at hw
  · have hmi := hpt i
    rw [hw] at hmi
    by_cases hm : wc ∈ s.guessed_letters
    · right
      rw [hmi]
      simp [hm]
    · left
      rw [hmi]
      simp [hm]

/-- Witness for C7: at a freshly initialized state the invariant holds. -/
theorem reachable_mask_matches_witness :
    (initialize_game takeOracle ['К', 'О', 'Т'] "normal").mask.length =
      (initialize_game takeOracle ['К', 'О', 'Т'] "normal").word.length :=
  (reachable_mask_matches takeOracle _
    (Reachable.init ['К', 'О', 'Т'] "normal")).1

/-- C8: in every reachable round state `error_count <= max_errors`;
`error_count` is 0 immediately after initialization; and once
`error_count` reaches `max_errors` the round loop processes no further
guesses and the outcome is a Loss. -/
theorem error_budget_respected (oracle : SampleOracle) (s : GameState)
    (h : Reachable oracle s) :
    s.error_count ≤ s.max_errors ∧
    (∀ raw_word game_mode,
      (initialize_game oracle raw_word game_mode).error_count = 0) ∧
    (s.max_errors ≤ s.error_count →
      (∀ inputs, play_round s inputs = s) ∧
      check_game_end s = RoundOutcome.loss) := by
  refine ⟨(reachable_inv oracle s h).2.2.2,
    fun w m => (initialize_game_fields oracle w m).2.1, fun hmax => ?_⟩
  have hrc : round_continues s = false := by
    simp [round_continues]
    omega
  exact ⟨play_round_stop s hrc, by simp [check_game_end, hmax]⟩

/-- Witness for C8: the bound and the zero start hold at an initial state. -/
theorem error_budget_respected_witness :
    (initialize_game takeOracle ['К', 'О', 'Т'] "normal").error_count ≤
      (initialize_game takeOracle ['К', 'О', 'Т'] "normal").max_errors :=
  (error_budget_respected takeOracle _
    (Reachable.init ['К', 'О', 'Т'] "normal")).1

/-- C10: in every reachable round state `guessed_letters` has no
duplicates and `error_count` equals the number of guessed letters that do
not occur in the secret (Easy-mode pre-revealed letters all occur in the
secret, so they never contribute). -/
theorem error_count_is_miss_count (oracle : SampleOracle) (s : GameState)
    (h : Reachable oracle s) :
    s.guessed_letters.Nodup ∧
    s.error_count =
      (s.guessed_letters.filter (fun c => decide (c ∉ s.word))).length := by
  obtain ⟨-, hnd, he, -⟩ := reachable_inv oracle s h
  exact ⟨hnd, he⟩

/-- Witness for C10: at an Easy-mode initial state, both parts hold. -/
theorem error_count_is_miss_count_witness :
    (initialize_game takeOracle ['к', 'о', 'т'] "easy").guessed_letters.Nodup ∧
    (initialize_game takeOracle ['к', 'о', 'т'] "easy").error_count =
      ((initialize_game takeOracle ['к', 'о', 'т'] "easy").guessed_letters.filter
        (fun c => decide (c ∉ (initialize_game takeOracle ['к', 'о', 'т'] "easy").word))).length :=
  error_count_is_miss_count takeOracle _ (Reachable.init ['к', 'о', 'т'] "easy")

/-- C9: for every secret over the supported alphabet and every guess
sequence drawn from the secret's letters that covers every letter of the
secret, the round ends in a Win with `error_count` equal to its value
immediately after initialization, which is 0 in both modes. -/
theorem covering_guesses_win (oracle : SampleOracle) (raw_word : List Char)
    (game_mode : String) (gs : List Char)
    (hvalid : ∀ c ∈ (initialize_game oracle raw_word game_mode).word,
      is_valid_russian_char c = true)
    (hsub : ∀ c ∈ gs, c ∈ (initialize_game oracle raw_word game_mode).word)
    (hcover : ∀ c ∈ (initialize_game oracle raw_word game_mode).word, c ∈ gs) :
    check_game_end (play_round (initialize_game oracle raw_word game_mode)
        (gs.map (fun c => [c]))) = RoundOutcome.win ∧
    is_terminal (play_round (initialize_game oracle raw_word game_mode)
        (gs.map (fun c => [c]))) = true ∧
    (play_round (initialize_game oracle raw_word game_mode)
        (gs.map (fun c => [c]))).error_count =
      (initialize_game oracle raw_word game_mode).error_count ∧
    (play_round (initialize_game oracle raw_word game_mode)
        (gs.map (fun c => [c]))).error_count = 0 := by
  obtain ⟨hw0, he0, hm0⟩ := initialize_game_fields oracle raw_word game_mode
  have hmask0 := initialize_game_maskInv oracle raw_word game_mode
  have herr0 : (initialize_game oracle raw_word game_mode).error_count <
      (initialize_game oracle raw_word game_mode).max_errors := by
    rw [he0, hm0]
    omega
  obtain ⟨h1, h2, h3, h4, h5, h6⟩ :=
    play_round_in_word gs (initialize_game oracle raw_word game_mode) hmask0 herr0
      (fun c hc => ⟨hvalid c (hsub c hc), hsub c hc⟩)
  have hnp : '_' ∉ (play_round (initialize_game oracle raw_word game_mode)
      (gs.map (fun c => [c]))).mask := by
    rcases h6 with h6 | h6
    · exact h6
    · refine no_placeholder_of_all_guessed _ h4 ?_ ?_
      · rw [h1]
        exact hvalid
      · rw [h1]
        exact fun c hc => h6 c (hcover c hc)
  have herrf : (play_round (initialize_game oracle raw_word game_mode)
      (gs.map (fun c => [c]))).error_count = 0 := by rw [h3, he0]
  have hmaxf : (play_round (initialize_game oracle raw_word game_mode)
      (gs.map (fun c => [c]))).max_errors = 6 := by rw [h2, hm0]
  refine ⟨by simp [check_game_end, herrf, hmaxf], ?_, by rw [h3], herrf⟩
  have hrcf : round_continues (play_round (initialize_game oracle raw_word game_mode)
      (gs.map (fun c => [c]))) = false := by
    simp [round_continues, hnp]
  simp [is_terminal, hrcf]

/-- Witness for C9: guessing К, О, Т in order wins a fresh round on КОТ
without a single error. -/
theorem covering_guesses_win_witness :
    check_game_end (play_round (initialize_game takeOracle ['К', 'О', 'Т'] "normal")
        ((['К', 'О', 'Т'] : List Char).map (fun c => [c]))) = RoundOutcome.win ∧
    (play_round (initialize_game takeOracle ['К', 'О', 'Т'] "normal")
        ((['К', 'О', 'Т'] : List Char).map (fun c => [c]))).error_count = 0 :=
  ⟨(covering_guesses_win takeOracle ['К', 'О', 'Т'] "normal" ['К', 'О', 'Т']
      (by decide) (by decide) (by decide)).1,
   (covering_guesses_win takeOracle ['К', 'О', 'Т'] "normal" ['К', 'О', 'Т']
      (by decide) (by decide) (by decide)).2.2.2⟩

end Hangman
